import Mathlib

/-
Shallow embedding of the chunked multi-source header acquisition and
reassembly core of src/index.js (dspv-poc).

Heights, steps and offsets are modelled as Int, mirroring JS number
arithmetic on the integer values the program manipulates (all are exact
integers far below 2^53). JS division enters only as
parseInt(heightDiff / seeds.length) on a nonnegative quotient, where Int
floor division coincides with it; JS % enters only with nonnegative
dividend and positive divisor, where Int emod coincides with it.
The remote call api.getBlockHeaders(height, count, ...) is modelled by an
explicit fetch parameter returning the list of headers; the SpvChain
structure is an external collaborator and enters only through the list
returned by getLongestChain.
-/

namespace DSPV

/-- A chunk record as pushed into headerChunks (src/index.js:53 and 59).
The JS fields are named from and to; from is a Lean keyword, so the
fields are spelled from_ and to_. -/
structure Chunk (α : Type) where
  from_ : Int
  to_ : Int
  items : List α
deriving DecidableEq

/-- One record of the flat header store built by getHeaderStoreFromChunks
(src/index.js:154). -/
structure StoreEntry (α : Type) where
  height : Int
  header : α
deriving DecidableEq

/-- One entry of the sequence returned by headerChain.getLongestChain(),
as consumed at src/index.js:175 and 180: the core only reads hash. -/
structure ChainEntry (α : Type) where
  height : Int
  hash : String
  header : α
deriving DecidableEq

/-- Heights visited by the fetch loop
for (let height = fromHeight; height < toHeight - extraHeight; height += step)
at src/index.js:48. The recursion runs on an explicit fuel;
fuel = (bound - start).toNat suffices for any step >= 1, because every
iteration advances height by at least 1, and on such fuel the definition
agrees with the JS loop. For step <= 0 the JS loop never terminates; the
model stops when the fuel runs out. -/
def loopHeightsAux (step : Int) : Nat → Int → Int → List Int
  | 0, _, _ => []
  | fuel + 1, height, bound =>
      if height < bound then height :: loopHeightsAux step fuel (height + step) bound
      else []

/-- The chunk records pushed by the loop of populateHeaderChain
(src/index.js:48-54): each iteration fetches step headers at the absolute
height and pushes the offset-relative range
[height - offset, height - offset + step) together with the fetched
items. -/
def loopChunksAux (fetch : Int → Int → List α) (step offset : Int)
    (fuel : Nat) (start bound : Int) : List (Chunk α) :=
  (loopHeightsAux step fuel start bound).map
    (fun height => ⟨height - offset, height - offset + step, fetch height step⟩)

def loopChunks (fetch : Int → Int → List α)
    (fromHeight bound step offset : Int) : List (Chunk α) :=
  loopChunksAux fetch step offset (bound - fromHeight).toNat fromHeight bound

/-- Chunks pushed by one call of populateHeaderChain (src/index.js:46-61):
the step loop runs while height < toHeight - extraHeight, then, when
extraHeight > 0, one extra fetch of extraHeight headers at toHeight is
pushed as [toHeight - offset, toHeight - offset + extraHeight). -/
def populateChunks (fetch : Int → Int → List α)
    (fromHeight toHeight step offset extraHeight : Int) : List (Chunk α) :=
  loopChunks fetch fromHeight (toHeight - extraHeight) step offset ++
    (if 0 < extraHeight then
      [⟨toHeight - offset, toHeight - offset + extraHeight, fetch toHeight extraHeight⟩]
     else [])

/-- src/index.js:94: const heightDelta = parseInt(heightDiff / seeds.length).
For 0 <= heightDiff and 0 < S (the only configurations the program runs),
JS float division followed by parseInt equals Int floor division. -/
def heightDelta (fromHeight toHeight : Int) (S : Nat) : Int :=
  (toHeight - fromHeight) / S

/-- src/index.js:95:
const bestStep = step === 0 ? Math.min(heightDelta, 2000) : step. -/
def bestStep (step heightDelta : Int) : Int :=
  if step = 0 then min heightDelta 2000 else step

/-- src/index.js:117: the last source (index === seeds.length - 1) is
asked for heightDiff % Math.min(seeds.length, bestStep) extra headers;
every other source gets none. -/
def lastSourceExtra (fromHeight toHeight step : Int) (S : Nat) (i : Nat) : Int :=
  if i = S - 1 then
    (toHeight - fromHeight) % min (S : Int) (bestStep step (heightDelta fromHeight toHeight S))
  else 0

/-- Chunks produced by the fetch task for source index i in the parallel
branch of buildHeaderChain (src/index.js:109-120): the task covers
[fromHeight + heightDelta*i, fromHeight + heightDelta*i + heightDelta)
with batch bestStep and offset fromHeight, the last source asking for the
extra headers of lastSourceExtra. -/
def sourceChunks (fetch : Int → Int → List α)
    (fromHeight toHeight step : Int) (S : Nat) (i : Nat) : List (Chunk α) :=
  let delta := heightDelta fromHeight toHeight S
  let localFromHeight := fromHeight + delta * i
  let localToHeight := localFromHeight + delta
  populateChunks fetch localFromHeight localToHeight
    (bestStep step delta) fromHeight (lastSourceExtra fromHeight toHeight step S i)

/-- All chunks pushed into headerChunks by the parallel branch of
buildHeaderChain (src/index.js:97-122), listed in source order.
Concurrent tasks may interleave their pushes, but the multiset of pushed
chunks is execution independent, and every property proved below
(interval coverage counts, length sums, membership) depends only on that
multiset. -/
def buildChunks (fetch : Int → Int → List α)
    (fromHeight toHeight step : Int) (S : Nat) : List (Chunk α) :=
  (List.range S).flatMap (sourceChunks fetch fromHeight toHeight step S)

/-- Chunks pushed by the sequential branch of buildHeaderChain
(src/index.js:124): one populateHeaderChain call over the whole range
with offset fromHeight and no extra headers. heightDelta still divides by
seeds.length (src/index.js:94) even in this branch. -/
def seqChunks (fetch : Int → Int → List α)
    (fromHeight toHeight step : Int) (S : Nat) : List (Chunk α) :=
  populateChunks fetch fromHeight toHeight
    (bestStep step (heightDelta fromHeight toHeight S)) fromHeight 0

/-- The comparator (a, b) => a.from - b.from at src/index.js:147 orders
chunks by ascending from. -/
def chunkLe (a b : Chunk α) : Prop := a.from_ ≤ b.from_

instance : DecidableRel (@chunkLe α) :=
  fun a b => inferInstanceAs (Decidable (a.from_ ≤ b.from_))

instance : IsTotal (Chunk α) chunkLe := ⟨fun a b => Int.le_total a.from_ b.from_⟩

instance : IsTrans (Chunk α) chunkLe := ⟨fun _ _ _ h1 h2 => le_trans h1 h2⟩

/-- Model of getHeaderStoreFromChunks (src/index.js:144-158). The JS
function sorts the caller array in place with the from comparator and
then concatenates the items, assigning height baseHeight + i to the item
at local index i of each chunk. The in-place mutation of the argument is
modelled by returning the sorted array as the first component (JS
Array.prototype.sort is stable, matched by insertion sort); the returned
store is the second component. -/
def getHeaderStoreFromChunks (chunks : List (Chunk α)) :
    List (Chunk α) × List (StoreEntry α) :=
  let sorted := List.insertionSort chunkLe chunks
  (sorted,
    sorted.flatMap (fun chunk =>
      chunk.items.enum.map (fun p => ⟨chunk.from_ + (p.1 : Int), p.2⟩)))

/-- Outcome of validateCheckpoints (src/index.js:180-184): either the
line Checkpoints valid on headerChain N is logged, or the line
INVALID CHECKPOINT! please query more headers from other DAPI nodes. -/
inductive ValidationResult where
  | valid (chainLength : Nat)
  | invalid
deriving DecidableEq

/-- Model of validateCheckpoints (src/index.js:173-185). The JS code
reads getLongestChain() once for sampling (line 175) and again for the
membership check (line 180); checkChain is the second snapshot, while the
sampling snapshot enters through shuffled, which stands for the result of
the random comparator shuffle at line 177 and is constrained in the
theorems to be a permutation of the hashes of the sampling snapshot.
slice(0, 2) is take 2, every/includes is all/contains. valid carries the
length logged at line 181 (a further getLongestChain() call, equal to
checkChain absent mutation). The function is total: the JS body contains
no throw, so the run always completes after logging. -/
def validateCheckpoints (checkChain : List (ChainEntry α))
    (shuffled : List String) : ValidationResult :=
  let checkpoints := shuffled.take 2
  if checkpoints.all (fun cp => (checkChain.map (fun h => h.hash)).contains cp) then
    .valid checkChain.length
  else
    .invalid

/-- Raw block header as returned by api.getBlockHeader, restricted to the
two fields the core touches (src/index.js:82-83); all other raw fields
are left untouched by the program and play no role here. -/
structure RawHeader where
  prevHash : String
  bits : String
deriving DecidableEq

/-- The root header after the two adjustments of src/index.js:82-83.
bits becomes Option Nat: JS unary plus on a 0x string yields an integer
for a valid hex string and NaN (none) otherwise. -/
structure AdjustedRootHeader where
  prevHash : String
  bits : Option Nat
deriving DecidableEq

def hexDigitVal (c : Char) : Option Nat :=
  if '0' ≤ c ∧ c ≤ '9' then some (c.toNat - Char.toNat '0')
  else if 'a' ≤ c ∧ c ≤ 'f' then some (c.toNat - Char.toNat 'a' + 10)
  else if 'A' ≤ c ∧ c ≤ 'F' then some (c.toNat - Char.toNat 'A' + 10)
  else none

/-- JS unary plus applied to the string 0x ++ s (src/index.js:83): the
hex digits accumulate big-endian; an empty or non-hex string gives NaN
(none). -/
def parseHexNat (s : String) : Option Nat :=
  s.data.foldl
    (fun acc c =>
      match acc, hexDigitVal c with
      | some a, some d => some (16 * a + d)
      | _, _ => none)
    (if s.data = [] then none else some 0)

def zeroHash : String :=
  "0000000000000000000000000000000000000000000000000000000000000000"

/-- src/index.js:82-83: fromBlockHeader.prevHash is overwritten with the
64-zero sentinel and fromBlockHeader.bits with +(a 0x hex string built
from the original bits). -/
def adjustRootHeader (h : RawHeader) : AdjustedRootHeader :=
  ⟨zeroHash, parseHexNat h.bits⟩

/-- Number of chunks whose offset-relative range [from_, to_) contains
the point x. -/
def coveredCount (chunks : List (Chunk α)) (x : Int) : Nat :=
  chunks.countP (fun c => decide (c.from_ ≤ x ∧ x < c.to_))

/-- Indicator of the half-open interval [lo, hi). -/
def ind (lo hi x : Int) : Nat := if lo ≤ x ∧ x < hi then 1 else 0

/-- Total number of fetched headers across a chunk list. -/
def chunkItemsTotal (chunks : List (Chunk α)) : Nat :=
  (chunks.map (fun c => c.items.length)).sum

/-- The list b, b + 1, ..., b + n - 1. -/
def intRange (b : Int) (n : Nat) : List Int :=
  (List.range n).map (fun (i : Nat) => b + (i : Int))

/-- Chunks laid head to tail from base b: each chunk starts where the
previous one ended. -/
def ChunksAdjacent : Int → List (Chunk α) → Prop
  | _, [] => True
  | b, c :: rest => c.from_ = b ∧ ChunksAdjacent c.to_ rest

/-- Fetch stub returning the requested number of placeholder headers;
used to evaluate the model on concrete inputs. -/
def unitFetch : Int → Int → List Unit := fun _ n => List.replicate n.toNat ()

theorem unitFetch_length (h n : Int) (hn : 0 < n) :
    ((unitFetch h n).length : Int) = n := by
  simp only [unitFetch, List.length_replicate]
  omega

theorem contains_of_mem {l : List String} {a : String} (h : a ∈ l) :
    l.contains a = true := by
  simpa using List.elem_iff.mpr h

theorem mem_of_contains {l : List String} {a : String} (h : l.contains a = true) :
    a ∈ l := by
  exact List.elem_iff.mp (by simpa using h)

theorem ind_split (lo mid hi x : Int) (h1 : lo ≤ mid) (h2 : mid ≤ hi) :
    ind lo mid x + ind mid hi x = ind lo hi x := by
  unfold ind
  split_ifs <;> omega

theorem coveredCount_nil (x : Int) : coveredCount ([] : List (Chunk α)) x = 0 := rfl

theorem coveredCount_cons (c : Chunk α) (l : List (Chunk α)) (x : Int) :
    coveredCount (c :: l) x = ind c.from_ c.to_ x + coveredCount l x := by
  unfold coveredCount ind
  rw [List.countP_cons]
  by_cases h : c.from_ ≤ x ∧ x < c.to_
  · simp [h, Nat.add_comm]
  · simp [h]

theorem coveredCount_singleton (c : Chunk α) (x : Int) :
    coveredCount [c] x = ind c.from_ c.to_ x := by
  rw [coveredCount_cons, coveredCount_nil]
  omega

theorem coveredCount_append (l1 l2 : List (Chunk α)) (x : Int) :
    coveredCount (l1 ++ l2) x = coveredCount l1 x + coveredCount l2 x :=
  List.countP_append _ _ _

theorem chunkItemsTotal_nil : chunkItemsTotal ([] : List (Chunk α)) = 0 := rfl

theorem chunkItemsTotal_cons (c : Chunk α) (l : List (Chunk α)) :
    chunkItemsTotal (c :: l) = c.items.length + chunkItemsTotal l := by
  simp [chunkItemsTotal]

theorem chunkItemsTotal_append (l1 l2 : List (Chunk α)) :
    chunkItemsTotal (l1 ++ l2) = chunkItemsTotal l1 + chunkItemsTotal l2 := by
  simp [chunkItemsTotal]

/-- Core behavior of the populateHeaderChain step loop on sufficient
fuel: started at f with bound f + D - r, where the loop span D is a
nonnegative multiple of step and 0 <= r < step, the pushed chunks cover
the offset-relative interval [f - offset, f + D - offset) exactly once at
every point (the final chunk overshoots the bound up to the next multiple
of step), and the fetched items total exactly D headers. -/
theorem loopChunksAux_spec {α : Type} (fetch : Int → Int → List α) (offset step : Int)
    (hstep : 0 < step)
    (hfetch : ∀ h n : Int, 0 < n → ((fetch h n).length : Int) = n) :
    ∀ (fuel : Nat) (f D r : Int), 0 ≤ D → step ∣ D → 0 ≤ r → r < step →
      (D - r).toNat ≤ fuel →
      (∀ x, coveredCount (loopChunksAux fetch step offset fuel f (f + D - r)) x
          = ind (f - offset) (f + D - offset) x) ∧
      ((chunkItemsTotal (loopChunksAux fetch step offset fuel f (f + D - r)) : Int) = D) := by
  intro fuel
  induction fuel with
  | zero =>
      intro f D r hD hdvd hr0 hrs hfuel
      have hD0 : D = 0 := by
        by_cases hpos : 0 < D
        · have := Int.le_of_dvd hpos hdvd
          omega
        · omega
      subst hD0
      have hunf : loopChunksAux fetch step offset 0 f (f + 0 - r) = [] := rfl
      rw [hunf]
      refine ⟨fun x => ?_, by simp [chunkItemsTotal_nil]⟩
      rw [coveredCount_nil]
      unfold ind
      split_ifs with h
      · omega
      · rfl
  | succ fuel ih =>
      intro f D r hD hdvd hr0 hrs hfuel
      by_cases hc : f < f + D - r
      · have hDpos : 0 < D := by omega
        have hstepD : step ≤ D := Int.le_of_dvd hDpos hdvd
        have hrec := ih (f + step) (D - step) r (by omega) (dvd_sub hdvd dvd_rfl) hr0 hrs
          (by omega)
        rw [show f + step + (D - step) - r = f + D - r from by ring] at hrec
        have hunf : loopChunksAux fetch step offset (fuel + 1) f (f + D - r)
            = ⟨f - offset, f - offset + step, fetch f step⟩ ::
              loopChunksAux fetch step offset fuel (f + step) (f + D - r) := by
          simp only [loopChunksAux, loopHeightsAux, if_pos hc, List.map_cons]
        rw [hunf]
        constructor
        · intro x
          rw [coveredCount_cons, hrec.1 x]
          rw [show f + step - offset = f - offset + step from by ring,
              show f + step + (D - step) - offset = f + D - offset from by ring]
          exact ind_split (f - offset) (f - offset + step) (f + D - offset) x
            (by omega) (by omega)
        · rw [chunkItemsTotal_cons]
          push_cast
          rw [hfetch f step hstep, hrec.2]
          ring
      · have hD0 : D = 0 := by
          by_cases hpos : 0 < D
          · have := Int.le_of_dvd hpos hdvd
            omega
          · omega
        subst hD0
        have hunf : loopChunksAux fetch step offset (fuel + 1) f (f + 0 - r) = [] := by
          simp only [loopChunksAux, loopHeightsAux, if_neg hc, List.map_nil]
        rw [hunf]
        refine ⟨fun x => ?_, by simp [chunkItemsTotal_nil]⟩
        rw [coveredCount_nil]
        unfold ind
        split_ifs with h
        · omega
        · rfl

/-- Coverage and item count of one populateHeaderChain call over
[f, f + delta) with extraHeight r: the loop tiles
[f - offset, f + delta - offset) and the extra fetch appends
[f + delta - offset, f + delta + r - offset), for a seamless cover of
[f - offset, f + delta + r - offset) totalling delta + r headers. -/
theorem populateChunks_spec {α : Type} (fetch : Int → Int → List α) (offset step : Int)
    (hstep : 0 < step)
    (hfetch : ∀ h n : Int, 0 < n → ((fetch h n).length : Int) = n)
    (f delta r : Int) (hD : 0 ≤ delta) (hdvd : step ∣ delta) (hr0 : 0 ≤ r) (hrs : r < step) :
    (∀ x, coveredCount (populateChunks fetch f (f + delta) step offset r) x
        = ind (f - offset) (f + delta + r - offset) x) ∧
    ((chunkItemsTotal (populateChunks fetch f (f + delta) step offset r) : Int) = delta + r) := by
  have hloop := loopChunksAux_spec fetch offset step hstep hfetch
    ((f + delta - r) - f).toNat f delta r hD hdvd hr0 hrs (by omega)
  constructor
  · intro x
    unfold populateChunks loopChunks
    rw [coveredCount_append, hloop.1 x]
    by_cases hr : 0 < r
    · rw [if_pos hr, coveredCount_singleton]
      rw [show f + delta - offset + r = f + delta + r - offset from by ring]
      exact ind_split (f - offset) (f + delta - offset) (f + delta + r - offset) x
        (by omega) (by omega)
    · rw [if_neg hr, coveredCount_nil]
      have hr0' : r = 0 := by omega
      subst hr0'
      rw [show f + delta + 0 - offset = f + delta - offset from by ring]
      omega
  · unfold populateChunks loopChunks
    rw [chunkItemsTotal_append]
    by_cases hr : 0 < r
    · rw [if_pos hr, chunkItemsTotal_cons, chunkItemsTotal_nil]
      push_cast
      rw [hloop.2, hfetch (f + delta) r hr]
      ring
    · rw [if_neg hr, chunkItemsTotal_nil]
      have hr0' : r = 0 := by omega
      subst hr0'
      push_cast
      rw [hloop.2]

/-- C1 amended: the per-source sub-ranges together with the step tiling
of populateHeaderChain cover [fromHeight, toHeight) (in offset-relative
coordinates, [0, toHeight - fromHeight)) exactly once with no gaps and no
overlaps, and each source fetches exactly the length of its sub-range
(plus the absorbed remainder for the last source), provided additionally
that bestStep divides heightDelta and that
(toHeight - fromHeight) mod min(S, bestStep) equals
(toHeight - fromHeight) mod S; without these extra conditions the loop
overshoots and chunks overlap (see the counterexample). -/
theorem tiling_completeness_amended {α : Type} (fetch : Int → Int → List α)
    (fromHeight toHeight step : Int) (S : Nat)
    (hfetch : ∀ h n : Int, 0 < n → ((fetch h n).length : Int) = n)
    (hS : 1 ≤ S) (hft : fromHeight < toHeight)
    (hbs : 0 < bestStep step (heightDelta fromHeight toHeight S))
    (hdvd : bestStep step (heightDelta fromHeight toHeight S)
      ∣ heightDelta fromHeight toHeight S)
    (hrem : (toHeight - fromHeight)
        % min (S : Int) (bestStep step (heightDelta fromHeight toHeight S))
      = (toHeight - fromHeight) % (S : Int)) :
    (∀ x, coveredCount (buildChunks fetch fromHeight toHeight step S) x
        = ind 0 (toHeight - fromHeight) x) ∧
    (∀ i : Nat, i < S →
      (chunkItemsTotal (sourceChunks fetch fromHeight toHeight step S i) : Int)
        = heightDelta fromHeight toHeight S
          + lastSourceExtra fromHeight toHeight step S i) := by
  have hdelta0 : 0 ≤ heightDelta fromHeight toHeight S := by
    unfold heightDelta
    exact Int.ediv_nonneg (by omega) (by positivity)
  have hSpos : (0 : Int) < (S : Int) := by exact_mod_cast hS
  have hminpos :
      0 < min (S : Int) (bestStep step (heightDelta fromHeight toHeight S)) :=
    lt_min hSpos hbs
  have hrr0 : 0 ≤ (toHeight - fromHeight)
      % min (S : Int) (bestStep step (heightDelta fromHeight toHeight S)) :=
    Int.emod_nonneg _ (ne_of_gt hminpos)
  have hrrlt : (toHeight - fromHeight)
        % min (S : Int) (bestStep step (heightDelta fromHeight toHeight S))
      < bestStep step (heightDelta fromHeight toHeight S) :=
    lt_of_lt_of_le (Int.emod_lt_of_pos _ hminpos) (min_le_right _ _)
  have hle0 : ∀ i : Nat, 0 ≤ lastSourceExtra fromHeight toHeight step S i := by
    intro i
    unfold lastSourceExtra
    split_ifs
    · exact hrr0
    · exact le_refl 0
  have hltE : ∀ i : Nat, lastSourceExtra fromHeight toHeight step S i
      < bestStep step (heightDelta fromHeight toHeight S) := by
    intro i
    unfold lastSourceExtra
    split_ifs
    · exact hrrlt
    · exact hbs
  have hsrc : ∀ i : Nat,
      (∀ x, coveredCount (sourceChunks fetch fromHeight toHeight step S i) x
        = ind (heightDelta fromHeight toHeight S * i)
            (heightDelta fromHeight toHeight S * i + heightDelta fromHeight toHeight S
              + lastSourceExtra fromHeight toHeight step S i) x) ∧
      ((chunkItemsTotal (sourceChunks fetch fromHeight toHeight step S i) : Int)
        = heightDelta fromHeight toHeight S
          + lastSourceExtra fromHeight toHeight step S i) := by
    intro i
    have hspec := populateChunks_spec fetch fromHeight
      (bestStep step (heightDelta fromHeight toHeight S)) hbs hfetch
      (fromHeight + heightDelta fromHeight toHeight S * i)
      (heightDelta fromHeight toHeight S)
      (lastSourceExtra fromHeight toHeight step S i)
      hdelta0 hdvd (hle0 i) (hltE i)
    have hdef : sourceChunks fetch fromHeight toHeight step S i
        = populateChunks fetch (fromHeight + heightDelta fromHeight toHeight S * i)
            (fromHeight + heightDelta fromHeight toHeight S * i
              + heightDelta fromHeight toHeight S)
            (bestStep step (heightDelta fromHeight toHeight S)) fromHeight
            (lastSourceExtra fromHeight toHeight step S i) := rfl
    constructor
    · intro x
      rw [hdef, hspec.1 x,
        show fromHeight + heightDelta fromHeight toHeight S * (i : Int) - fromHeight
          = heightDelta fromHeight toHeight S * i from by ring,
        show fromHeight + heightDelta fromHeight toHeight S * (i : Int)
            + heightDelta fromHeight toHeight S
            + lastSourceExtra fromHeight toHeight step S i - fromHeight
          = heightDelta fromHeight toHeight S * i + heightDelta fromHeight toHeight S
            + lastSourceExtra fromHeight toHeight step S i from by ring]
    · rw [hdef]
      exact hspec.2
  have key : ∀ n : Nat, n ≤ S → ∀ x,
      coveredCount
        ((List.range n).flatMap (sourceChunks fetch fromHeight toHeight step S)) x
        = ind 0 (heightDelta fromHeight toHeight S * n
            + (if n = S then (toHeight - fromHeight)
                % min (S : Int) (bestStep step (heightDelta fromHeight toHeight S))
              else 0)) x := by
    intro n
    induction n with
    | zero =>
        intro _ x
        have h0 : (List.range 0).flatMap (sourceChunks fetch fromHeight toHeight step S)
            = [] := rfl
        rw [h0, coveredCount_nil, if_neg (by omega : ¬ (0 : Nat) = S),
          show heightDelta fromHeight toHeight S * (((0 : Nat)) : Int) + 0 = 0 from by
            push_cast; ring]
        unfold ind
        split_ifs with h
        · omega
        · rfl
    | succ n ihn =>
        intro hn x
        have hflat : (List.range (n + 1)).flatMap
              (sourceChunks fetch fromHeight toHeight step S)
            = (List.range n).flatMap (sourceChunks fetch fromHeight toHeight step S)
              ++ sourceChunks fetch fromHeight toHeight step S n := by
          rw [List.range_succ]
          simp
        rw [hflat, coveredCount_append, ihn (by omega) x, (hsrc n).1 x,
          if_neg (by omega : ¬ n = S)]
        by_cases hlast : n + 1 = S
        · rw [if_pos hlast]
          have hrn : lastSourceExtra fromHeight toHeight step S n
              = (toHeight - fromHeight)
                % min (S : Int) (bestStep step (heightDelta fromHeight toHeight S)) := by
            unfold lastSourceExtra
            rw [if_pos (by omega : n = S - 1)]
          rw [hrn,
            show heightDelta fromHeight toHeight S * ((n : Nat) : Int) + 0
              = heightDelta fromHeight toHeight S * (n : Int) from by ring,
            show heightDelta fromHeight toHeight S * (((n + 1 : Nat)) : Int)
                + (toHeight - fromHeight)
                  % min (S : Int) (bestStep step (heightDelta fromHeight toHeight S))
              = heightDelta fromHeight toHeight S * (n : Int)
                + heightDelta fromHeight toHeight S
                + (toHeight - fromHeight)
                  % min (S : Int) (bestStep step (heightDelta fromHeight toHeight S))
              from by push_cast; ring]
          exact ind_split 0 (heightDelta fromHeight toHeight S * (n : Int))
            (heightDelta fromHeight toHeight S * (n : Int)
              + heightDelta fromHeight toHeight S
              + (toHeight - fromHeight)
                % min (S : Int) (bestStep step (heightDelta fromHeight toHeight S))) x
            (mul_nonneg hdelta0 (by positivity)) (by linarith)
        · rw [if_neg hlast]
          have hrn : lastSourceExtra fromHeight toHeight step S n = 0 := by
            unfold lastSourceExtra
            rw [if_neg (by omega : ¬ n = S - 1)]
          rw [hrn,
            show heightDelta fromHeight toHeight S * ((n : Nat) : Int) + 0
              = heightDelta fromHeight toHeight S * (n : Int) from by ring,
            show heightDelta fromHeight toHeight S * (n : Int)
                + heightDelta fromHeight toHeight S + 0
              = heightDelta fromHeight toHeight S * (n : Int)
                + heightDelta fromHeight toHeight S from by ring,
            show heightDelta fromHeight toHeight S * (((n + 1 : Nat)) : Int) + 0
              = heightDelta fromHeight toHeight S * (n : Int)
                + heightDelta fromHeight toHeight S from by push_cast; ring]
          exact ind_split 0 (heightDelta fromHeight toHeight S * (n : Int))
            (heightDelta fromHeight toHeight S * (n : Int)
              + heightDelta fromHeight toHeight S) x
            (mul_nonneg hdelta0 (by positivity)) (by linarith)
  constructor
  · intro x
    have hbuild := key S (le_refl S) x
    rw [if_pos rfl] at hbuild
    have heq : heightDelta fromHeight toHeight S * (S : Int)
        + (toHeight - fromHeight)
          % min (S : Int) (bestStep step (heightDelta fromHeight toHeight S))
        = toHeight - fromHeight := by
      rw [hrem]
      unfold heightDelta
      rw [mul_comm ((toHeight - fromHeight) / (S : Int)) (S : Int)]
      exact Int.ediv_add_emod (toHeight - fromHeight) (S : Int)
    rw [heq] at hbuild
    unfold buildChunks
    exact hbuild
  · intro i _
    exact (hsrc i).2

/-- Concrete instance of the amended tiling claim: fromHeight 0, toHeight
13, step 0 (auto), S = 3: bestStep = 4, bestStep divides heightDelta = 4,
and 13 mod min(3, 4) = 13 mod 3; the chunks cover relative height 5
exactly once and the last source fetches 4 + 1 headers. -/
theorem tiling_completeness_amended_witness :
    ((1 : Nat) ≤ 3) ∧ ((0 : Int) < 13) ∧
    (0 < bestStep 0 (heightDelta 0 13 3)) ∧
    (bestStep 0 (heightDelta 0 13 3) ∣ heightDelta 0 13 3) ∧
    ((13 - 0 : Int) % min ((3 : Nat) : Int) (bestStep 0 (heightDelta 0 13 3))
      = (13 - 0) % ((3 : Nat) : Int)) ∧
    coveredCount (buildChunks unitFetch 0 13 0 3) 5 = ind 0 (13 - 0) 5 ∧
    (chunkItemsTotal (sourceChunks unitFetch 0 13 0 3 2) : Int)
      = heightDelta 0 13 3 + lastSourceExtra 0 13 0 3 2 := by
  have main := tiling_completeness_amended unitFetch 0 13 0 3 unitFetch_length
    (by omega) (by decide) (by decide) ⟨1, by decide⟩ (by decide)
  exact ⟨by omega, by decide, by decide, ⟨1, by decide⟩, by decide,
    main.1 5, main.2 2 (by omega)⟩

theorem loopChunksAux_spans {α : Type} (fetch : Int → Int → List α)
    (step offset : Int) (fuel : Nat) (start bound : Int) :
    ∀ c ∈ loopChunksAux fetch step offset fuel start bound,
      c.to_ - c.from_ = step := by
  intro c hc
  unfold loopChunksAux at hc
  obtain ⟨h, _, rfl⟩ := List.mem_map.mp hc
  ring

/-- C2 amended: populateHeaderChain produces a trailing remainder chunk
exactly when extraHeight > 0, and that chunk has length extraHeight (not
(to - from) mod step); every chunk pushed by the step loop has length
step even when the loop overshoots. In buildHeaderChain the last source
is the one source with nonzero extraHeight, namely
(toHeight - fromHeight) mod min(S, bestStep). -/
theorem populate_remainder_amended {α : Type} (fetch : Int → Int → List α)
    (fromHeight toHeight step offset extraHeight : Int) :
    (0 < extraHeight →
      populateChunks fetch fromHeight toHeight step offset extraHeight
        = loopChunks fetch fromHeight (toHeight - extraHeight) step offset
          ++ [⟨toHeight - offset, toHeight - offset + extraHeight,
              fetch toHeight extraHeight⟩]) ∧
    (extraHeight ≤ 0 →
      populateChunks fetch fromHeight toHeight step offset extraHeight
        = loopChunks fetch fromHeight (toHeight - extraHeight) step offset) ∧
    (∀ c ∈ loopChunks fetch fromHeight (toHeight - extraHeight) step offset,
      c.to_ - c.from_ = step) ∧
    (∀ S : Nat, 1 ≤ S →
      lastSourceExtra fromHeight toHeight step S (S - 1)
        = (toHeight - fromHeight)
          % min (S : Int) (bestStep step (heightDelta fromHeight toHeight S))) := by
  refine ⟨fun he => ?_, fun he => ?_, ?_, fun S hS => ?_⟩
  · unfold populateChunks
    rw [if_pos he]
  · unfold populateChunks
    rw [if_neg (by omega), List.append_nil]
  · exact loopChunksAux_spans fetch step offset _ _ _
  · unfold lastSourceExtra
    rw [if_pos rfl]

/-- Concrete instance of the amended remainder claim: the last-source
call of the run fromHeight 0, toHeight 13, step auto, S = 3 (sub-range
[8,12), bestStep 4, extraHeight 1) ends with one remainder chunk of
length 1 at [12, 13), and the last source extraHeight is
13 mod min(3, 4) = 1. -/
theorem populate_remainder_amended_witness :
    ((0 : Int) < 1) ∧
    (populateChunks unitFetch 8 12 4 0 1
      = loopChunks unitFetch 8 (12 - 1) 4 0
        ++ [⟨12 - 0, 12 - 0 + 1, unitFetch 12 1⟩]) ∧
    ((1 : Nat) ≤ 3) ∧
    (lastSourceExtra 0 13 0 3 (3 - 1)
      = (13 - 0) % min ((3 : Nat) : Int) (bestStep 0 (heightDelta 0 13 3))) := by
  have main := populate_remainder_amended unitFetch 8 12 4 0 1
  exact ⟨by decide, main.1 (by decide), by omega,
    (populate_remainder_amended unitFetch 0 13 0 0 0).2.2.2 3 (by omega)⟩

/-- C7 amended: bestStep is min(heightDelta, 2000) when step = 0 and step
otherwise, and every fetch of the parallel run uses batch size bestStep
except the single remainder fetch of the last source, which uses its
extraHeight (toHeight - fromHeight) mod min(S, bestStep). -/
theorem autostep_resolution_amended :
    (∀ delta : Int, bestStep 0 delta = min delta 2000) ∧
    (∀ step delta : Int, step ≠ 0 → bestStep step delta = step) ∧
    (∀ (α : Type) (fetch : Int → Int → List α) (fromHeight toHeight step : Int)
      (S : Nat), ∀ c ∈ buildChunks fetch fromHeight toHeight step S,
        c.to_ - c.from_ = bestStep step (heightDelta fromHeight toHeight S) ∨
        c.to_ - c.from_ = (toHeight - fromHeight)
          % min (S : Int) (bestStep step (heightDelta fromHeight toHeight S))) := by
  refine ⟨fun delta => by unfold bestStep; rw [if_pos rfl],
    fun step delta h => by unfold bestStep; rw [if_neg h], ?_⟩
  intro α fetch fromHeight toHeight step S c hc
  unfold buildChunks at hc
  obtain ⟨i, hi, hci⟩ := List.mem_flatMap.mp hc
  have hdef : sourceChunks fetch fromHeight toHeight step S i
      = populateChunks fetch (fromHeight + heightDelta fromHeight toHeight S * i)
          (fromHeight + heightDelta fromHeight toHeight S * i
            + heightDelta fromHeight toHeight S)
          (bestStep step (heightDelta fromHeight toHeight S)) fromHeight
          (lastSourceExtra fromHeight toHeight step S i) := rfl
  rw [hdef] at hci
  unfold populateChunks at hci
  rcases List.mem_append.mp hci with hl | hr
  · left
    exact loopChunksAux_spans fetch _ fromHeight _ _ _ c hl
  · by_cases he : 0 < lastSourceExtra fromHeight toHeight step S i
    · rw [if_pos he] at hr
      have hceq := List.mem_singleton.mp hr
      subst hceq
      right
      show fromHeight + heightDelta fromHeight toHeight S * (i : Int)
          + heightDelta fromHeight toHeight S - fromHeight
          + lastSourceExtra fromHeight toHeight step S i
          - (fromHeight + heightDelta fromHeight toHeight S * (i : Int)
            + heightDelta fromHeight toHeight S - fromHeight)
        = (toHeight - fromHeight)
          % min (S : Int) (bestStep step (heightDelta fromHeight toHeight S))
      have hval : lastSourceExtra fromHeight toHeight step S i
          = (toHeight - fromHeight)
            % min (S : Int) (bestStep step (heightDelta fromHeight toHeight S)) := by
        unfold lastSourceExtra at he ⊢
        split_ifs at he ⊢ with hi1
        · rfl
        · omega
      rw [hval]
      ring
    · rw [if_neg he] at hr
      exact absurd hr (List.not_mem_nil c)

/-- Concrete instance of the amended auto-step claim: bestStep 0 4 =
min(4, 2000), bestStep 24 4 = 24, and in the run fromHeight 0, toHeight
13, step 0, S = 3 the chunk [12, 13) of the last source has length equal
to the remainder 13 mod min(3, 4) = 1 rather than bestStep. -/
theorem autostep_resolution_amended_witness :
    bestStep 0 4 = min 4 2000 ∧
    ((24 : Int) ≠ 0 ∧ bestStep 24 4 = 24) ∧
    ((⟨12, 13, [()]⟩ : Chunk Unit) ∈ buildChunks unitFetch 0 13 0 3 ∧
      ((⟨12, 13, [()]⟩ : Chunk Unit).to_ - (⟨12, 13, [()]⟩ : Chunk Unit).from_
          = bestStep 0 (heightDelta 0 13 3) ∨
        (⟨12, 13, [()]⟩ : Chunk Unit).to_ - (⟨12, 13, [()]⟩ : Chunk Unit).from_
          = (13 - 0) % min ((3 : Nat) : Int) (bestStep 0 (heightDelta 0 13 3)))) := by
  refine ⟨autostep_resolution_amended.1 4,
    ⟨by decide, autostep_resolution_amended.2.1 24 4 (by decide)⟩,
    by decide,
    autostep_resolution_amended.2.2 Unit unitFetch 0 13 0 3 _ (by decide)⟩

theorem intRange_succ (b : Int) (n : Nat) :
    intRange b (n + 1) = b :: intRange (b + 1) n := by
  unfold intRange
  rw [List.range_succ_eq_map, List.map_cons, List.map_map]
  congr 1
  · push_cast
    ring
  · apply List.map_congr_left
    intro i _
    simp only [Function.comp_apply]
    push_cast
    ring

theorem intRange_append (b : Int) (m n : Nat) :
    intRange b m ++ intRange (b + (m : Int)) n = intRange b (m + n) := by
  unfold intRange
  rw [List.range_add, List.map_append, List.map_map]
  congr 1
  apply List.map_congr_left
  intro i _
  simp only [Function.comp_apply]
  push_cast
  ring

theorem loopChunksAux_adjacent {α : Type} (fetch : Int → Int → List α)
    (step offset : Int) :
    ∀ (fuel : Nat) (start bound : Int),
      ChunksAdjacent (start - offset)
        (loopChunksAux fetch step offset fuel start bound) := by
  intro fuel
  induction fuel with
  | zero => intro start bound; exact trivial
  | succ fuel ih =>
      intro start bound
      by_cases hc : start < bound
      · have hunf : loopChunksAux fetch step offset (fuel + 1) start bound
            = ⟨start - offset, start - offset + step, fetch start step⟩ ::
              loopChunksAux fetch step offset fuel (start + step) bound := by
          simp only [loopChunksAux, loopHeightsAux, if_pos hc, List.map_cons]
        rw [hunf]
        refine ⟨rfl, ?_⟩
        have hrest := ih (start + step) bound
        rw [show start + step - offset = start - offset + step from by ring] at hrest
        exact hrest
      · have hunf : loopChunksAux fetch step offset (fuel + 1) start bound = [] := by
          simp only [loopChunksAux, loopHeightsAux, if_neg hc, List.map_nil]
        rw [hunf]
        exact trivial

theorem chunksAdjacent_sorted {α : Type} :
    ∀ (l : List (Chunk α)) (b : Int), ChunksAdjacent b l →
      (∀ c ∈ l, c.from_ ≤ c.to_) →
      List.Sorted chunkLe l ∧ ∀ c ∈ l, b ≤ c.from_ := by
  intro l
  induction l with
  | nil =>
      intro b _ _
      exact ⟨List.sorted_nil, by intro c hc; cases hc⟩
  | cons c rest ih =>
      intro b hadj hspan
      obtain ⟨hcb, hrest⟩ := hadj
      have hc_span : c.from_ ≤ c.to_ := hspan c (by simp)
      obtain ⟨hsorted, hlb⟩ :=
        ih c.to_ hrest (fun c' hc' => hspan c' (by simp [hc']))
      constructor
      · rw [List.sorted_cons]
        refine ⟨fun c' hc' => ?_, hsorted⟩
        have h1 := hlb c' hc'
        unfold chunkLe
        omega
      · intro c' hc'
        rcases List.mem_cons.mp hc' with rfl | hmem
        · omega
        · have h1 := hlb c' hmem
          omega

theorem enum_store_heights {α : Type} :
    ∀ (items : List α) (base : Int) (n : Nat),
      ((List.enumFrom n items).map
          (fun p => (⟨base + (p.1 : Int), p.2⟩ : StoreEntry α))).map
        (fun e => e.height) = intRange (base + n) items.length := by
  intro items
  induction items with
  | nil => intro base n; rfl
  | cons a items ih =>
      intro base n
      rw [List.enumFrom_cons, List.map_cons, List.map_cons, ih base (n + 1),
        show base + ((n + 1 : Nat) : Int) = base + (n : Int) + 1 from by push_cast; ring]
      simp only [List.length_cons]
      rw [intRange_succ]

/-- Heights emitted by the store loop of getHeaderStoreFromChunks on a
head-to-tail chunk list whose items lengths match the ranges: the
contiguous run b, b + 1, ..., b + total - 1. -/
theorem store_heights_of_adjacent {α : Type} :
    ∀ (l : List (Chunk α)) (b : Int), ChunksAdjacent b l →
      (∀ c ∈ l, (c.items.length : Int) = c.to_ - c.from_) →
      (l.flatMap (fun chunk =>
          chunk.items.enum.map
            (fun p => (⟨chunk.from_ + (p.1 : Int), p.2⟩ : StoreEntry α)))).map
        (fun e => e.height)
        = intRange b (chunkItemsTotal l) := by
  intro l
  induction l with
  | nil => intro b _ _; rfl
  | cons c rest ih =>
      intro b hadj hlen
      obtain ⟨hcb, hrest⟩ := hadj
      have hclen : (c.items.length : Int) = c.to_ - c.from_ := hlen c (by simp)
      rw [List.flatMap_cons, List.map_append,
        ih c.to_ hrest (fun c' hc' => hlen c' (by simp [hc'])), chunkItemsTotal_cons]
      have h1 : ((c.items.enum.map
            (fun p => (⟨c.from_ + (p.1 : Int), p.2⟩ : StoreEntry α))).map
          (fun e => e.height)) = intRange c.from_ c.items.length := by
        have h0 := enum_store_heights c.items c.from_ 0
        rw [show c.from_ + ((0 : Nat) : Int) = c.from_ from by push_cast; ring] at h0
        exact h0
      rw [h1]
      have hcto : c.to_ = b + (c.items.length : Int) := by omega
      rw [hcb, hcto]
      exact intRange_append b c.items.length (chunkItemsTotal rest)

/-- C3 amended: for a sequential run over [fromHeight, toHeight) in which
bestStep divides the range and every fetch returns the requested number
of headers, the assembled HeaderStore heights are exactly
0, 1, ..., toHeight - fromHeight - 1: a contiguous run with no gaps
starting at fromHeight - offset = 0 (heights are offsets relative to the
global fromHeight, not absolute heights starting at fromHeight). -/
theorem headerStore_contiguous_amended {α : Type} (fetch : Int → Int → List α)
    (fromHeight toHeight step : Int) (S : Nat)
    (hfetch : ∀ h n : Int, 0 < n → ((fetch h n).length : Int) = n)
    (hbs : 0 < bestStep step (heightDelta fromHeight toHeight S))
    (hdvd : bestStep step (heightDelta fromHeight toHeight S) ∣ (toHeight - fromHeight))
    (hle : fromHeight ≤ toHeight) :
    ((getHeaderStoreFromChunks (seqChunks fetch fromHeight toHeight step S)).2).map
      (fun e => e.height) = intRange 0 (toHeight - fromHeight).toNat := by
  have hseq : seqChunks fetch fromHeight toHeight step S
      = loopChunksAux fetch (bestStep step (heightDelta fromHeight toHeight S))
          fromHeight (toHeight - fromHeight).toNat fromHeight toHeight := by
    unfold seqChunks populateChunks loopChunks
    rw [if_neg (by omega : ¬ (0 : Int) < 0), List.append_nil, sub_zero]
  have hspec := loopChunksAux_spec fetch fromHeight
    (bestStep step (heightDelta fromHeight toHeight S)) hbs hfetch
    (toHeight - fromHeight).toNat fromHeight (toHeight - fromHeight) 0
    (by omega) hdvd (le_refl 0) hbs (by omega)
  rw [show fromHeight + (toHeight - fromHeight) - 0 = toHeight from by ring] at hspec
  have hadj := loopChunksAux_adjacent fetch
    (bestStep step (heightDelta fromHeight toHeight S)) fromHeight
    (toHeight - fromHeight).toNat fromHeight toHeight
  rw [sub_self] at hadj
  have hspan := loopChunksAux_spans fetch
    (bestStep step (heightDelta fromHeight toHeight S)) fromHeight
    (toHeight - fromHeight).toNat fromHeight toHeight
  have hitems : ∀ c ∈ loopChunksAux fetch
      (bestStep step (heightDelta fromHeight toHeight S)) fromHeight
      (toHeight - fromHeight).toNat fromHeight toHeight,
      (c.items.length : Int) = c.to_ - c.from_ := by
    intro c hc
    have hspanc := hspan c hc
    unfold loopChunksAux at hc
    obtain ⟨h, _, rfl⟩ := List.mem_map.mp hc
    rw [hfetch h (bestStep step (heightDelta fromHeight toHeight S)) hbs]
    ring
  have hsorted : List.Sorted chunkLe (loopChunksAux fetch
      (bestStep step (heightDelta fromHeight toHeight S)) fromHeight
      (toHeight - fromHeight).toNat fromHeight toHeight) :=
    (chunksAdjacent_sorted _ 0 hadj (fun c hc => by have := hspan c hc; omega)).1
  have hstore : (getHeaderStoreFromChunks (seqChunks fetch fromHeight toHeight step S)).2
      = (loopChunksAux fetch (bestStep step (heightDelta fromHeight toHeight S))
          fromHeight (toHeight - fromHeight).toNat fromHeight toHeight).flatMap
        (fun chunk => chunk.items.enum.map
          (fun p => (⟨chunk.from_ + (p.1 : Int), p.2⟩ : StoreEntry α))) := by
    rw [hseq]
    unfold getHeaderStoreFromChunks
    rw [List.Sorted.insertionSort_eq hsorted]
  rw [hstore, store_heights_of_adjacent _ 0 hadj hitems]
  have htotal : chunkItemsTotal (loopChunksAux fetch
      (bestStep step (heightDelta fromHeight toHeight S)) fromHeight
      (toHeight - fromHeight).toNat fromHeight toHeight)
      = (toHeight - fromHeight).toNat := by
    have h2 := hspec.2
    omega
  rw [htotal]

/-- Concrete instance of the amended HeaderStore claim: the sequential
run fromHeight 1000, toHeight 1004, step 2, one seed assembles store
heights 0, 1, 2, 3 = intRange 0 4, contiguous from 0. -/
theorem headerStore_contiguous_amended_witness :
    (0 < bestStep 2 (heightDelta 1000 1004 1)) ∧
    (bestStep 2 (heightDelta 1000 1004 1) ∣ ((1004 : Int) - 1000)) ∧
    ((1000 : Int) ≤ 1004) ∧
    ((getHeaderStoreFromChunks (seqChunks unitFetch 1000 1004 2 1)).2).map
      (fun e => e.height) = intRange 0 ((1004 : Int) - 1000).toNat := by
  have main := headerStore_contiguous_amended unitFetch 1000 1004 2 1
    unitFetch_length (by decide) ⟨2, by decide⟩ (by decide)
  exact ⟨by decide, ⟨2, by decide⟩, by decide, main⟩

/-- C4: given chunks covering [0,10) and [20,30) with [10,20) missing,
getHeaderStoreFromChunks keeps the gap visible: the output heights are
0..9 followed by 20..29, not the silently compacted 0..19. -/
theorem assembly_gap_detection :
    ((getHeaderStoreFromChunks
        [(⟨0, 10, List.replicate 10 ()⟩ : Chunk Unit), ⟨20, 30, List.replicate 10 ()⟩]).2).map
      (fun e => e.height) = intRange 0 10 ++ intRange 20 10 ∧
    ((getHeaderStoreFromChunks
        [(⟨0, 10, List.replicate 10 ()⟩ : Chunk Unit), ⟨20, 30, List.replicate 10 ()⟩]).2).map
      (fun e => e.height) ≠ intRange 0 20 := by
  decide

/-- C6: after the root header adjustment the predecessor hash field is
the 64-zero sentinel regardless of its original value, and a bits string
of 1d00ffff becomes the integer 0x1d00ffff = 486604799. -/
theorem root_header_adjustment (h : RawHeader) :
    (adjustRootHeader h).prevHash = zeroHash ∧
    (h.bits = "1d00ffff" → (adjustRootHeader h).bits = some 0x1d00ffff) := by
  refine ⟨rfl, fun hb => ?_⟩
  show parseHexNat h.bits = some 0x1d00ffff
  rw [hb]
  decide

/-- Concrete instance of root_header_adjustment: a raw header with a
nonzero predecessor hash and bits 1d00ffff. -/
theorem root_header_adjustment_witness :
    (adjustRootHeader ⟨"ff00", "1d00ffff"⟩).prevHash = zeroHash ∧
    (adjustRootHeader ⟨"ff00", "1d00ffff"⟩).bits = some 0x1d00ffff :=
  ⟨(root_header_adjustment _).1, (root_header_adjustment _).2 rfl⟩

/-- C9: getHeaderStoreFromChunks reorders the caller chunks array in
place (returned as the first component) into a permutation of the
original chunks sorted ascending by the from field; being a permutation,
every chunk record itself is unchanged. -/
theorem headerStore_sorts_argument {α : Type} (chunks : List (Chunk α)) :
    ((getHeaderStoreFromChunks chunks).1).Perm chunks ∧
    List.Sorted chunkLe ((getHeaderStoreFromChunks chunks).1) :=
  ⟨List.perm_insertionSort chunkLe chunks, List.sorted_insertionSort chunkLe chunks⟩

/-- C5: with checkpoints sampled from the very chain they are validated
against (shuffled is a permutation of the chain hashes, the chain not
mutated in between), validateCheckpoints takes the Checkpoints valid
branch. -/
theorem checkpoint_roundtrip {α : Type} (chain : List (ChainEntry α))
    (shuffled : List String) (hne : chain ≠ [])
    (hperm : shuffled.Perm (chain.map (fun h => h.hash))) :
    validateCheckpoints chain shuffled = .valid chain.length := by
  unfold validateCheckpoints
  rw [if_pos]
  rw [List.all_eq_true]
  intro cp hcp
  exact contains_of_mem (hperm.mem_iff.mp (List.take_subset 2 shuffled hcp))

theorem checkpoint_roundtrip_witness :
    ([(⟨0, "aa", ()⟩ : ChainEntry Unit)] ≠ []) ∧
    ((["aa"] : List String).Perm
      (([(⟨0, "aa", ()⟩ : ChainEntry Unit)]).map (fun h => h.hash))) ∧
    validateCheckpoints [(⟨0, "aa", ()⟩ : ChainEntry Unit)] ["aa"] = .valid 1 :=
  ⟨by decide, by decide, checkpoint_roundtrip _ _ (by decide) (by decide)⟩

/-- C8: when some sampled checkpoint is not in the current longest chain
(possible only if the chain changed between the sampling snapshot and the
checking snapshot), validateCheckpoints evaluates to the logged invalid
checkpoint report. The model is a total function, so the run completes
normally rather than raising. -/
theorem validation_failure_reported {α : Type}
    (sampleChain checkChain : List (ChainEntry α)) (shuffled : List String)
    (hperm : shuffled.Perm (sampleChain.map (fun h => h.hash)))
    (hmiss : ∃ cp ∈ shuffled.take 2, ¬ cp ∈ checkChain.map (fun h => h.hash)) :
    validateCheckpoints checkChain shuffled = .invalid := by
  unfold validateCheckpoints
  rw [if_neg]
  intro hall
  rw [List.all_eq_true] at hall
  obtain ⟨cp, hcp, hnot⟩ := hmiss
  exact hnot (mem_of_contains (hall cp hcp))

theorem validation_failure_reported_witness :
    (∃ cp ∈ (["aa"] : List String).take 2,
      ¬ cp ∈ ([] : List (ChainEntry Unit)).map (fun h => h.hash)) ∧
    validateCheckpoints ([] : List (ChainEntry Unit)) ["aa"] = .invalid :=
  ⟨by decide,
   validation_failure_reported [(⟨0, "aa", ()⟩ : ChainEntry Unit)] [] ["aa"]
     (by decide) (by decide)⟩

/-- C10: on an empty longest chain the sampled checkpoint set is empty,
the all-present check holds vacuously and validateCheckpoints takes the
Checkpoints valid branch; the model is total, so no error is raised. -/
theorem empty_chain_checkpoints_valid {α : Type} (shuffled : List String)
    (hperm : shuffled.Perm (([] : List (ChainEntry α)).map (fun h => h.hash))) :
    shuffled.take 2 = [] ∧
    validateCheckpoints ([] : List (ChainEntry α)) shuffled = .valid 0 := by
  have hs : shuffled = [] := by simpa using hperm
  subst hs
  exact ⟨rfl, rfl⟩

theorem empty_chain_checkpoints_valid_witness :
    (([] : List String).Perm (([] : List (ChainEntry Unit)).map (fun h => h.hash))) ∧
    ([] : List String).take 2 = [] ∧
    validateCheckpoints ([] : List (ChainEntry Unit)) [] = .valid 0 :=
  ⟨by decide, empty_chain_checkpoints_valid [] (by decide)⟩

/-- Counterexample to C1 as stated: at fromHeight 0, toHeight 10, S = 2
sources, step 3, the produced chunks cover the relative height 5 twice
(the first source overshoots its sub-range), while an exact tiling of
[0, 10) would cover it exactly once. -/
theorem tiling_completeness_cex :
    coveredCount (buildChunks unitFetch 0 10 3 2) 5 = 2 ∧ ind 0 (10 - 0) 5 = 1 := by
  decide

/-- Counterexample to C2 as stated: populateHeaderChain over [0, 10) with
step 3 and no extraHeight produces four chunks all of length 3 (the loop
overshoots) and no trailing chunk of length (10 - 0) mod 3 = 1. -/
theorem populate_remainder_cex :
    (populateChunks unitFetch 0 10 3 0 0).map (fun c => c.to_ - c.from_) = [3, 3, 3, 3] ∧
    ¬ ∃ c ∈ populateChunks unitFetch 0 10 3 0 0, c.to_ - c.from_ = (10 - 0) % 3 := by
  decide

/-- Counterexample to C3 as stated: a fully successful sequential run
from height 1000 to 1004 with step 2 yields store heights 0..3 (heights
are offsets relative to fromHeight), not 1000..1003 starting at the
global fromHeight. -/
theorem headerStore_cex :
    ((getHeaderStoreFromChunks (seqChunks unitFetch 1000 1004 2 1)).2).map
      (fun e => e.height) = [0, 1, 2, 3] ∧
    ((getHeaderStoreFromChunks (seqChunks unitFetch 1000 1004 2 1)).2).map
      (fun e => e.height) ≠ [1000, 1001, 1002, 1003] := by
  decide

/-- Counterexample to C7 as stated: with step = 0, fromHeight 0, toHeight
13 and 3 sources, bestStep = min(4, 2000) = 4, yet not every fetch uses
batch size 4: the last source issues a remainder fetch of 1 header. -/
theorem autostep_cex :
    ¬ (∀ c ∈ buildChunks unitFetch 0 13 0 3,
        c.to_ - c.from_ = bestStep 0 (heightDelta 0 13 3)) ∧
    (∃ c ∈ buildChunks unitFetch 0 13 0 3, c.to_ - c.from_ = 1) ∧
    bestStep 0 (heightDelta 0 13 3) = 4 := by
  decide

end DSPV
